import Mathlib

/-!
Shallow embedding of the MediaDrop download queue manager from `src/src/App.tsx`.

The React component keeps two pieces of core state: the ordered list of
`MediaItem`s (`mediaItems`) and the bounded download history
(`downloadHistory`).  The pure helpers (`getFileExtension`, `getMediaType`,
`generateFilename`, `addMediaItem`) are translated directly.  The stateful
transfer engine (`downloadFile`) and batch orchestrator (`downloadAll`) are
embedded as event-trace producers: a `Transport` value describes one
observable behaviour of the external `fetch` collaborator (status, the
`content-length` header, the chunk sequence delivered by the body reader and
how the stream ends), `downloadEvents` is the exact sequence of store
mutations the source performs for that behaviour, and `applyEvent` replays a
mutation against the state.  JavaScript exceptions are modelled by `Option`:
a function returns `none` exactly when the corresponding source code throws.

JavaScript strings are modelled as `List Char` (`Str`) so that every string
operation the source uses (`split`, `pop`, `toLowerCase`, `includes`,
`trim`, `===`) is a structurally recursive, kernel-computable function; the
case mapping covers ASCII, which is all the source's extension lists and the
specification's examples use.  The WHATWG `new URL` platform parser is an
external collaborator and is a parameter (`Parse`) of the embedding;
`demoParse` is a finite table agreeing with the real parser on the concrete
URLs used in the witnesses.
-/

namespace MediaDrop

/-- The model of JavaScript strings. -/
abbrev Str : Type := List Char

/-- Coerce a Lean string literal into the model. -/
def str (s : String) : Str := s.toList

/-- JS `String.prototype.split` with a one-character separator (the source
only splits on `'.'` and `'/'`): always returns a nonempty list, with empty
pieces for adjacent/leading/trailing separators. -/
def splitOnChar (sep : Char) : Str → List Str
  | [] => [[]]
  | c :: cs =>
      let r := splitOnChar sep cs
      if c = sep then [] :: r
      else
        match r with
        | [] => [[c]]
        | h :: t => (c :: h) :: t

/-- ASCII lowering of one character, the fragment of JS `toLowerCase` the
source exercises. -/
def lowerChar (c : Char) : Char :=
  if 'A' ≤ c ∧ c ≤ 'Z' then Char.ofNat (c.toNat + 32) else c

/-- JS `String.prototype.toLowerCase` (ASCII fragment). -/
def strToLower (s : Str) : Str := s.map lowerChar

/-- JS `String.prototype.trim`: strip leading and trailing whitespace. -/
def strTrim (s : Str) : Str :=
  ((s.dropWhile Char.isWhitespace).reverse.dropWhile Char.isWhitespace).reverse

/-- JS `Number.prototype.toString` for the `Date.now()` timestamps used as
ids. -/
def natStr (n : Nat) : Str := Nat.toDigits 10 n

/-- Media kind, the source union type `'image' | 'video'` (App.tsx line 7). -/
inductive MediaType where
  | image
  | video
deriving DecidableEq

/-- Item lifecycle status, the source union
`'pending' | 'downloading' | 'completed' | 'error'` (App.tsx line 10). -/
inductive MediaStatus where
  | pending
  | downloading
  | completed
  | error
deriving DecidableEq

/-- Record `MediaItem` (App.tsx lines 4-13).  `progress` is a rational percentage;
the source stores the number `received / total * 100`, modelled in `ℚ`. -/
structure MediaItem where
  id : Str
  url : Str
  type : MediaType
  filename : Str
  size : Option Str
  status : MediaStatus
  progress : Option ℚ
  downloadUrl : Option Str
deriving DecidableEq

/-- Record `DownloadHistory` (App.tsx lines 15-21); `downloadedAt` is a timestamp. -/
structure DownloadHistory where
  id : Str
  filename : Str
  url : Str
  type : MediaType
  downloadedAt : Nat
deriving DecidableEq

/-- Result of a successful `new URL(url)`: the only field the source reads
is `pathname`. -/
structure URLObj where
  pathname : Str
deriving DecidableEq

/-- The WHATWG URL parser, an external platform collaborator: `none` means
`new URL(url)` throws a `TypeError`. -/
def Parse : Type := Str → Option URLObj

/-- Function `getFileExtension` (App.tsx lines 33-36):
`new URL(url).pathname.split('.').pop()?.toLowerCase() || ''`.
`split` always yields a nonempty array, so `pop` returns the last piece;
`|| ''` only renames `""` to `""`.  The function throws (returns `none`)
exactly when the URL does not parse. -/
def getFileExtension (parse : Parse) (url : Str) : Option Str :=
  (parse url).map (fun u => strToLower ((splitOnChar '.' u.pathname).getLastD []))

/-- The image extension whitelist (App.tsx line 40). -/
def imageExts : List Str :=
  [str "jpg", str "jpeg", str "png", str "gif", str "webp", str "svg", str "bmp"]

/-- The video extension whitelist (App.tsx line 41). -/
def videoExts : List Str :=
  [str "mp4", str "webm", str "avi", str "mov", str "wmv", str "flv", str "mkv"]

/-- Function `getMediaType` (App.tsx lines 38-48).  Throws (returns `none`) exactly
when `getFileExtension` does, i.e. on a URL the platform parser rejects. -/
def getMediaType (parse : Parse) (url : Str) : Option MediaType :=
  (getFileExtension parse url).map (fun ext =>
    if ext ∈ imageExts then MediaType.image
    else if ext ∈ videoExts then MediaType.video
    else MediaType.image)

/-- Function `generateFilename` (App.tsx lines 50-59).  The `try` branch takes the
last `/`-segment (`|| 'download'` when it is empty) and, when it has no dot,
suffixes `.` and `getFileExtension(url)`.  The `catch` branch of the source
evaluates `` `download_${Date.now()}.${getFileExtension(url)}` `` — but
`getFileExtension` re-parses the same URL and throws again, so the fallback
string is never produced: the model keeps that call, making the `catch`
branch `none` whenever the parse failed. -/
def generateFilename (parse : Parse) (now : Nat) (url : Str) : Option Str :=
  match parse url with
  | some u =>
      let rawSeg := (splitOnChar '/' u.pathname).getLastD []
      let filename := if rawSeg = [] then str "download" else rawSeg
      if filename.contains '.' then some filename
      else (getFileExtension parse url).map (fun ext => filename ++ ['.'] ++ ext)
  | none => (getFileExtension parse url).map (fun ext =>
      str "download_" ++ natStr now ++ ['.'] ++ ext)

/-- The fresh item built by `addMediaItem` (App.tsx lines 65-71);
`id` is `Date.now().toString()`. -/
def newItemOf (now : Nat) (turl : Str) (ty : MediaType) (fn : Str) : MediaItem :=
  { id := natStr now
    url := turl
    type := ty
    filename := fn
    size := none
    status := MediaStatus.pending
    progress := none
    downloadUrl := none }

/-- Function `addMediaItem` (App.tsx lines 61-74).  The blank/duplicate guard runs
first; afterwards `getMediaType` and `generateFilename` are evaluated while
building the new item, and both throw when the trimmed URL does not parse,
so the append happens only for parsable URLs (`none` = the handler throws
with the store untouched). -/
def addMediaItem (parse : Parse) (now : Nat) (items : List MediaItem)
    (url : Str) : Option (List MediaItem) :=
  let trimmedUrl := strTrim url
  if trimmedUrl = [] then some items
  else if items.any (fun item => item.url == trimmedUrl) then some items
  else
    match getMediaType parse trimmedUrl, generateFilename parse now trimmedUrl with
    | some ty, some fn => some (items ++ [newItemOf now trimmedUrl ty fn])
    | _, _ => none

/-- Finite table agreeing with the WHATWG URL parser on the concrete inputs
used in the witnesses below: for the three well-formed `https://x.test/...`
URLs the real parser yields exactly these pathnames, and every other string
used below (no valid scheme, or nothing but a scheme) makes `new URL`
throw. -/
def demoParse : Parse := fun url =>
  if url = str "https://x.test/clip" then some { pathname := str "/clip" }
  else if url = str "https://x.test/pic.jpg" then some { pathname := str "/pic.jpg" }
  else if url = str "https://x.test/a.mp4" then some { pathname := str "/a.mp4" }
  else none

/-! ## The transport collaborator -/

/-- How the response body stream ends after delivering its chunks: a final
`done` read, or a rejected `reader.read()` (a stream read error). -/
inductive StreamEnd where
  | done
  | readError
deriving DecidableEq

/-- One observable behaviour of a `fetch` response: `ok` is `response.ok`,
`contentLength` is `response.headers.get('content-length')` (`none` when the
header is absent), `hasBody` tells whether `response.body` is non-null,
`chunks` are the byte lengths of the `Uint8Array` chunks the reader delivers
before the stream ends as `streamEnd` describes. -/
structure Response where
  ok : Bool
  contentLength : Option Str
  hasBody : Bool
  chunks : List Nat
  streamEnd : StreamEnd
deriving DecidableEq

/-- One observable behaviour of the transport for a single `fetch(item.url)`:
either the promise rejects (network error) or a response arrives. -/
inductive Transport where
  | netError
  | resp (r : Response)
deriving DecidableEq

/-- JavaScript `parseInt(s, 10)`: skip leading whitespace, read an optional
sign and then a maximal run of decimal digits; `NaN` (modelled as `none`)
when no digit is found. -/
def jsParseInt10 (s : Str) : Option Int :=
  let cs := s.dropWhile Char.isWhitespace
  let signAndRest : Int × Str :=
    match cs with
    | '-' :: r => (-1, r)
    | '+' :: r => (1, r)
    | r => (1, r)
  let ds := signAndRest.2.takeWhile Char.isDigit
  if ds.isEmpty then none
  else some (signAndRest.1 *
    (ds.foldl (fun a c => a * 10 + (c.toNat - 48)) (0 : Nat) : Nat))

/-- Source line `const total = contentLength ? parseInt(contentLength, 10) : 0`
(App.tsx line 141): a missing or empty (falsy) header gives `0`, otherwise
`parseInt`, whose `NaN` is modelled as `none`. -/
def jsTotal (cl : Option Str) : Option Int :=
  match cl with
  | none => some 0
  | some s => if s = [] then some 0 else jsParseInt10 s

/-- The guard `total > 0` (App.tsx line 154): progress updates happen exactly
when the parsed total is a positive integer (`NaN > 0` is false in JS). -/
def jsTotalPos (cl : Option Str) : Option Nat :=
  match jsTotal cl with
  | some n => if 0 < n then some n.toNat else none
  | none => none

/-- Whether the stream ended with a clean `done`. -/
def streamEndIsDone : StreamEnd → Bool
  | StreamEnd.done => true
  | StreamEnd.readError => false

/-- A transfer succeeds iff the response arrives with `ok` and either the
body is null (the reader loop is skipped) or the stream ends cleanly. -/
def transferSucceeds : Transport → Bool
  | Transport.netError => false
  | Transport.resp r => r.ok && (!r.hasBody || streamEndIsDone r.streamEnd)

/-- Running byte totals after each chunk: `received += value.length`
(App.tsx line 152). -/
def cumSums (received : Nat) : List Nat → List Nat
  | [] => []
  | c :: cs => (received + c) :: cumSums (received + c) cs

/-- The progress percentages pushed to the store, one per chunk, but only
when the parsed total is positive: `progress = received / total * 100`
(App.tsx lines 154-158). -/
def streamVals (tot : Option Nat) (received : Nat) : List Nat → List ℚ
  | [] => []
  | c :: cs =>
      match tot with
      | some tv => (((received + c : Nat) : ℚ) / (tv : ℚ) * 100) ::
          streamVals tot (received + c) cs
      | none => streamVals tot (received + c) cs

/-- All progress values a `downloadFile` run pushes for transport `t`. -/
def progressValues (t : Transport) : List ℚ :=
  match t with
  | Transport.netError => []
  | Transport.resp r =>
      if r.ok then
        (if r.hasBody then streamVals (jsTotalPos r.contentLength) 0 r.chunks else [])
      else []

/-! ## Store mutation events -/

/-- Operation `appendHistory` is `prev => [historyItem, ...prev.slice(0, 49)]`
(App.tsx line 187): head insert, keeping the first 49 old entries. -/
def appendHistory (e : DownloadHistory) (h : List DownloadHistory) :
    List DownloadHistory :=
  e :: h.take 49

/-- The history entry created on success (App.tsx lines 180-186): fresh id
`Date.now().toString()`, the rest copied from the item, timestamp now. -/
def mkHistory (now : Nat) (item : MediaItem) : DownloadHistory :=
  { id := natStr now
    filename := item.filename
    url := item.url
    type := item.type
    downloadedAt := now }

/-- One store mutation issued by the transfer engine.  Every variant except
`histAppend` is a `setMediaItems(prev => prev.map(i => i.id === id ? ... : i))`
call in the source. -/
inductive StoreEvent where
  | startDownloading (id : Str)
  | setProgress (id : Str) (p : ℚ)
  | complete (id : Str)
  | fail (id : Str)
  | histAppend (e : DownloadHistory)

/-- The id an event's item update targets (`none` for the history append). -/
def targetsId : StoreEvent → Option Str
  | StoreEvent.startDownloading id => some id
  | StoreEvent.setProgress id _ => some id
  | StoreEvent.complete id => some id
  | StoreEvent.fail id => some id
  | StoreEvent.histAppend _ => none

/-- The history entry an event appends, if any. -/
def histPayload : StoreEvent → Option DownloadHistory
  | StoreEvent.histAppend e => some e
  | _ => none

/-- The progress value an event pushes, if any. -/
def progPayload : StoreEvent → Option ℚ
  | StoreEvent.setProgress _ p => some p
  | _ => none

/-- The exact sequence of store mutations `downloadFile(item)` performs when
the transport behaves as `t` (App.tsx lines 130-195): transition to
`downloading` with `progress = 0`; on a rejected fetch or `!response.ok`,
the `catch` sets `error`; otherwise one progress push per chunk while the
parsed total is positive; a read error is caught the same way; on clean
exhaustion the item is completed with `progress = 100` and one history entry
is appended.  The function is total: the source `catch` swallows every
failure, so no exception reaches the caller. -/
def downloadEvents (t : Transport) (item : MediaItem) (now : Nat) :
    List StoreEvent :=
  StoreEvent.startDownloading item.id ::
    match t with
    | Transport.netError => [StoreEvent.fail item.id]
    | Transport.resp r =>
        if r.ok then
          let progEvs :=
            if r.hasBody then
              (streamVals (jsTotalPos r.contentLength) 0 r.chunks).map
                (fun v => StoreEvent.setProgress item.id v)
            else []
          if r.hasBody && !streamEndIsDone r.streamEnd then
            progEvs ++ [StoreEvent.fail item.id]
          else
            progEvs ++ [StoreEvent.complete item.id,
              StoreEvent.histAppend (mkHistory now item)]
        else [StoreEvent.fail item.id]

/-- The effect of one event on a single item, mirroring the per-element body
of each `prev.map(i => i.id === id ? {...i, ...} : i)` in the source. -/
def applyEvItem (j : MediaItem) : StoreEvent → MediaItem
  | StoreEvent.startDownloading tid =>
      if j.id == tid then
        { j with status := MediaStatus.downloading, progress := some 0 } else j
  | StoreEvent.setProgress tid p =>
      if j.id == tid then { j with progress := some p } else j
  | StoreEvent.complete tid =>
      if j.id == tid then
        { j with status := MediaStatus.completed, progress := some 100 } else j
  | StoreEvent.fail tid =>
      if j.id == tid then { j with status := MediaStatus.error } else j
  | StoreEvent.histAppend _ => j

/-- The net effect of one `downloadFile` run on the downloaded item itself. -/
def runOne (t : Transport) (item : MediaItem) (now : Nat) : MediaItem :=
  (downloadEvents t item now).foldl applyEvItem item

/-- The core state: the ordered queue and the history log. -/
structure AppState where
  items : List MediaItem
  history : List DownloadHistory

/-- Replaying one store mutation: item events map the per-item update over
the queue exactly as `setMediaItems(prev => prev.map(...))` does; the
history event performs the bounded head append. -/
def applyEvent (s : AppState) (e : StoreEvent) : AppState :=
  { items := s.items.map (fun i => applyEvItem i e)
    history :=
      match e with
      | StoreEvent.histAppend h => appendHistory h s.history
      | _ => s.history }

/-- Replaying a whole event sequence. -/
def runEvents (evs : List StoreEvent) (s : AppState) : AppState :=
  evs.foldl applyEvent s

/-- The net effect of one `downloadFile(item)` call on the core state. -/
def downloadFileRun (t : Transport) (item : MediaItem) (now : Nat)
    (s : AppState) : AppState :=
  runEvents (downloadEvents t item now) s

/-- The statuses the store reports for the item `id` across the run: the
initial state and the state after each mutation. -/
def statusTrace (evs : List StoreEvent) (s : AppState) (id : Str) :
    List MediaStatus :=
  (evs.scanl applyEvent s).filterMap
    (fun st => (st.items.find? (fun i => i.id == id)).map (fun i => i.status))

/-- The same trace computed on a single tracked item. -/
def itemStatuses (j : MediaItem) (evs : List StoreEvent) : List MediaStatus :=
  (evs.scanl applyEvItem j).map (fun i => i.status)

/-- Collapse consecutive repeats, leaving the order of distinct phases. -/
def dedupRuns {α : Type} [DecidableEq α] : List α → List α
  | [] => []
  | [a] => [a]
  | a :: b :: l =>
      if a = b then dedupRuns (b :: l) else a :: dedupRuns (b :: l)

/-! ## The batch orchestrator -/

/-- One step of the `downloadAll` trace: a store mutation or the fixed
`setTimeout(resolve, 500)` inter-item delay (App.tsx line 202). -/
inductive BatchEv where
  | ev (e : StoreEvent)
  | delay (ms : Nat)

/-- Function `downloadAll` (App.tsx lines 197-204): snapshot the items that are
`pending` now, then for each, in order, run `downloadFile` to its terminal
state and wait 500ms.  `T` gives the transport behaviour and `tm` the
completion clock for each item id. -/
def downloadAllEvents (T : Str → Transport) (tm : Str → Nat)
    (items : List MediaItem) : List BatchEv :=
  (items.filter (fun i => decide (i.status = MediaStatus.pending))).flatMap
    (fun i => (downloadEvents (T i.id) i (tm i.id)).map BatchEv.ev ++
      [BatchEv.delay 500])

/-- Replaying a batch step: the delay does not touch the state. -/
def applyBatch (s : AppState) : BatchEv → AppState
  | BatchEv.ev e => applyEvent s e
  | BatchEv.delay _ => s

/-- Replaying a whole batch trace. -/
def runBatch (evs : List BatchEv) (s : AppState) : AppState :=
  evs.foldl applyBatch s

/-- Per-item view of a batch step. -/
def applyBatchItem (j : MediaItem) : BatchEv → MediaItem
  | BatchEv.ev e => applyEvItem j e
  | BatchEv.delay _ => j

/-- The item ids a batch trace targets, in order. -/
def batchTargets (evs : List BatchEv) : List Str :=
  evs.filterMap (fun be =>
    match be with
    | BatchEv.ev e => targetsId e
    | BatchEv.delay _ => none)

/-! ## The public interface -/

/-- The user-triggered commands of the component: URL submission
(`addMediaItem`), item removal (`removeMediaItem`), a single download
(`downloadFile`), the batch (`downloadAll`), `clearCompleted` and
`clearHistory`.  Clipboard copy and the drag handlers mutate no core state. -/
inductive Op where
  | add (now : Nat) (url : Str)
  | remove (id : Str)
  | run (id : Str) (t : Transport) (now : Nat)
  | runAll (T : Str → Transport) (tm : Str → Nat)
  | clearCompleted
  | clearHistory

/-- One public-interface step; `none` means the handler threw (only `add` on
an unparsable URL) with the state unchanged. -/
def step (parse : Parse) (s : AppState) : Op → Option AppState
  | Op.add now url =>
      (addMediaItem parse now s.items url).map (fun items => { s with items })
  | Op.remove id =>
      some { s with items := s.items.filter (fun i => !(i.id == id)) }
  | Op.run id t now =>
      match s.items.find? (fun i => i.id == id) with
      | some item => some (downloadFileRun t item now s)
      | none => some s
  | Op.runAll T tm => some (runBatch (downloadAllEvents T tm s.items) s)
  | Op.clearCompleted =>
      some { s with
        items := s.items.filter (fun i => !decide (i.status = MediaStatus.completed)) }
  | Op.clearHistory => some { s with history := [] }

/-- Folding a chronological list of entries into the history with the
bounded append. -/
def histFold (es : List DownloadHistory) (h : List DownloadHistory) :
    List DownloadHistory :=
  es.foldl (fun a e => appendHistory e a) h

/-- The history `h2` arises from `h` by some sequence of bounded appends. -/
def ReachableByAppends (h h2 : List DownloadHistory) : Prop :=
  ∃ es : List DownloadHistory, h2 = histFold es h

/-! ## Concrete fixtures for the witnesses -/

/-- A sample history entry. -/
def hEntry : DownloadHistory :=
  { id := str "0", filename := str "f", url := str "u"
    type := MediaType.image, downloadedAt := 0 }

/-- Sixty chronological history entries, as left by 60 successful downloads. -/
def entries60 : List DownloadHistory :=
  (List.range 60).map (fun n =>
    { id := natStr n, filename := str "f", url := str "u"
      type := MediaType.image, downloadedAt := n })

/-- A pending demo item. -/
def itemA : MediaItem :=
  { id := str "1"
    url := str "https://x.test/pic.jpg"
    type := MediaType.image
    filename := str "pic.jpg"
    size := none
    status := MediaStatus.pending
    progress := none
    downloadUrl := none }

/-- A demo item already downloading when the batch starts. -/
def itemB : MediaItem :=
  { id := str "2"
    url := str "https://x.test/a.mp4"
    type := MediaType.video
    filename := str "a.mp4"
    size := none
    status := MediaStatus.downloading
    progress := some 0
    downloadUrl := none }

/-- A second pending demo item. -/
def itemC : MediaItem :=
  { id := str "3"
    url := str "https://x.test/clip"
    type := MediaType.image
    filename := str "clip./clip"
    size := none
    status := MediaStatus.pending
    progress := none
    downloadUrl := none }

/-- A successful transport: `ok` response, `content-length: 4`, two 2-byte
chunks, clean end of stream. -/
def tOk : Transport :=
  Transport.resp
    { ok := true, contentLength := some (str "4"), hasBody := true
      chunks := [2, 2], streamEnd := StreamEnd.done }

/-- A failing transport: the `fetch` promise rejects. -/
def tNet : Transport := Transport.netError

/-- A lying transport: it declares `content-length: 10` but delivers a
20-byte chunk, driving the pushed progress to 200%. -/
def tOver : Transport :=
  Transport.resp
    { ok := true, contentLength := some (str "10"), hasBody := true
      chunks := [20], streamEnd := StreamEnd.done }

/-! ## Helper lemmas -/

/-- Item updates never change ids. -/
theorem applyEvItem_id (j : MediaItem) (e : StoreEvent) :
    (applyEvItem j e).id = j.id := by
  cases e <;> simp only [applyEvItem] <;> split <;> rfl

/-- Folded item updates never change ids. -/
theorem foldl_applyEvItem_id (evs : List StoreEvent) :
    ∀ j : MediaItem, (evs.foldl applyEvItem j).id = j.id := by
  induction evs with
  | nil => intro j; rfl
  | cons e evs ih => intro j; rw [List.foldl_cons, ih, applyEvItem_id]

/-- Lemma: `find?` commutes with a map that preserves the predicate. -/
theorem find?_map_pred {α : Type} (l : List α) (f : α → α) (p : α → Bool)
    (hp : ∀ x, p (f x) = p x) : (l.map f).find? p = (l.find? p).map f := by
  induction l with
  | nil => rfl
  | cons a l ih =>
      simp only [List.map_cons, List.find?_cons, hp a]
      cases p a <;> simp [ih]

/-- One mutation moves the tracked item by `applyEvItem`. -/
theorem find?_applyEvent (s : AppState) (e : StoreEvent) (id : Str)
    (j : MediaItem) (h : s.items.find? (fun i => i.id == id) = some j) :
    (applyEvent s e).items.find? (fun i => i.id == id) =
      some (applyEvItem j e) := by
  have hp : ∀ x : MediaItem, ((applyEvItem x e).id == id) = (x.id == id) := by
    intro x; rw [applyEvItem_id]
  show (s.items.map (fun i => applyEvItem i e)).find? (fun i => i.id == id) = _
  rw [find?_map_pred _ _ _ hp, h]; rfl

/-- Replaying events acts independently on every queue position: the queue
after a run is the original queue mapped through the folded per-item
update. -/
theorem items_runEvents (evs : List StoreEvent) : ∀ s : AppState,
    (runEvents evs s).items = s.items.map (fun i => evs.foldl applyEvItem i) := by
  induction evs with
  | nil => intro s; simp [runEvents]
  | cons e evs ih =>
      intro s
      have h1 : runEvents (e :: evs) s = runEvents evs (applyEvent s e) := rfl
      rw [h1, ih]
      show (s.items.map fun i => applyEvItem i e).map _ = _
      rw [List.map_map]; rfl

/-- The tracked item after a run. -/
theorem find?_runEvents (evs : List StoreEvent) (s : AppState) (id : Str)
    (j : MediaItem) (h : s.items.find? (fun i => i.id == id) = some j) :
    (runEvents evs s).items.find? (fun i => i.id == id) =
      some (evs.foldl applyEvItem j) := by
  rw [items_runEvents]
  have hp : ∀ x : MediaItem,
      ((evs.foldl applyEvItem x).id == id) = (x.id == id) := by
    intro x; rw [foldl_applyEvItem_id]
  rw [find?_map_pred _ _ _ hp, h]; rfl

/-- The status trace seen through the store equals the trace of the tracked
item alone. -/
theorem statusTrace_eq (evs : List StoreEvent) :
    ∀ (s : AppState) (id : Str) (j : MediaItem),
      s.items.find? (fun i => i.id == id) = some j →
      statusTrace evs s id = itemStatuses j evs := by
  induction evs with
  | nil =>
      intro s id j h
      simp [statusTrace, itemStatuses, List.scanl_nil, h]
  | cons e evs ih =>
      intro s id j h
      have hstep := find?_applyEvent s e id j h
      unfold statusTrace itemStatuses
      rw [List.scanl_cons, List.scanl_cons]
      simp only [List.singleton_append, List.filterMap_cons, h,
        Option.map_some', List.map_cons]
      exact congrArg (List.cons j.status)
        (ih (applyEvent s e) id (applyEvItem j e) hstep)

/-- The history after a run is the fold of the appended entries. -/
theorem runEvents_history (evs : List StoreEvent) : ∀ s : AppState,
    (runEvents evs s).history =
      histFold (evs.filterMap histPayload) s.history := by
  induction evs with
  | nil => intro s; rfl
  | cons e evs ih =>
      intro s
      have h1 : runEvents (e :: evs) s = runEvents evs (applyEvent s e) := rfl
      rw [h1, ih]
      cases e <;> rfl

/-- Lemma: `take 50` ignores whether the tail beyond position 49 was pre-truncated. -/
theorem take_cons_take {α : Type} (e : α) (h : List α) (n : Nat) (hn : n ≤ 50) :
    (e :: h.take 49).take n = (e :: h).take n := by
  cases n with
  | zero => simp
  | succ m =>
      simp only [List.take_succ_cons, List.take_take]
      have : min m 49 = m := by omega
      rw [this]

/-- Closed form of iterated bounded appends: the log is the reversed entry
list prefixed to the old log, truncated to 50. -/
theorem histFold_eq_take (es : List DownloadHistory) :
    ∀ h : List DownloadHistory, h.length ≤ 50 →
      histFold es h = (es.reverse ++ h).take 50 := by
  induction es with
  | nil =>
      intro h hlen
      simpa [histFold] using (List.take_of_length_le hlen).symm
  | cons e es ih =>
      intro h hlen
      have hstep : (appendHistory e h).length ≤ 50 := by
        simp only [appendHistory, List.length_cons, List.length_take]; omega
      have h1 : histFold (e :: es) h = histFold es (appendHistory e h) := rfl
      rw [h1, ih (appendHistory e h) hstep]
      have h2 : (e :: es).reverse ++ h = es.reverse ++ (e :: h) := by
        rw [List.reverse_cons, List.append_assoc]; rfl
      rw [h2]
      simp only [appendHistory]
      rw [List.take_append_eq_append_take, List.take_append_eq_append_take]
      congr 1
      exact take_cons_take e h _ (by omega)

/-- With at least 50 entries appended, the old log is fully evicted. -/
theorem histFold_recent (es h : List DownloadHistory) (hlen : h.length ≤ 50)
    (hes : 50 ≤ es.length) : histFold es h = es.reverse.take 50 := by
  rw [histFold_eq_take es h hlen, List.take_append_eq_append_take]
  have h0 : 50 - es.reverse.length = 0 := by
    simp only [List.length_reverse]; omega
  rw [h0, List.take_zero, List.append_nil]

/-- Lemma: `dedupRuns` keeps a head that differs from its successor. -/
theorem dedupRuns_cons_ne_head {α : Type} [DecidableEq α] (a b : α)
    (l : List α) (hab : a ≠ b) :
    dedupRuns (a :: b :: l) = a :: dedupRuns (b :: l) := by
  simp [dedupRuns, hab]

/-- Lemma: `dedupRuns` collapses a leading block of repeats. -/
theorem dedupRuns_replicate_append {α : Type} [DecidableEq α] :
    ∀ (n : Nat) (a : α) (l : List α),
      dedupRuns (List.replicate (n + 1) a ++ l) = dedupRuns (a :: l) := by
  intro n
  induction n with
  | zero => intro a l; rfl
  | succ m ih =>
      intro a l
      have h2 : List.replicate (m + 1) a ++ l =
          a :: (List.replicate m a ++ l) := by
        rw [List.replicate_succ, List.cons_append]
      have h3 : List.replicate (m + 2) a ++ l =
          a :: a :: (List.replicate m a ++ l) := by
        rw [List.replicate_succ, List.cons_append, h2]
      rw [h3]
      have h4 : dedupRuns (a :: a :: (List.replicate m a ++ l)) =
          dedupRuns (a :: (List.replicate m a ++ l)) := by
        simp [dedupRuns]
      rw [h4, ← h2, ih]

/-- A phase change after a block of repeats survives `dedupRuns`. -/
theorem dedupRuns_phase {α : Type} [DecidableEq α] (a b : α)
    (tl : List α) (m : Nat) (hab : a ≠ b) :
    dedupRuns (a :: (List.replicate (m + 1) b ++ tl)) =
      a :: dedupRuns (b :: tl) := by
  have h1 : List.replicate (m + 1) b ++ tl =
      b :: (List.replicate m b ++ tl) := by
    rw [List.replicate_succ, List.cons_append]
  rw [h1, dedupRuns_cons_ne_head a b _ hab, ← h1,
    dedupRuns_replicate_append m b tl]

/-- Lemma: `scanl` over an append splits into the two partial scans. -/
theorem scanl_append {α β : Type} (f : β → α → β) :
    ∀ (l1 l2 : List α) (b : β),
      List.scanl f b (l1 ++ l2) =
        List.scanl f b l1 ++ (List.scanl f (List.foldl f b l1) l2).tail := by
  intro l1
  induction l1 with
  | nil =>
      intro l2 b
      cases l2 <;> rfl
  | cons a l1 ih =>
      intro l2 b
      rw [List.cons_append, List.scanl_cons, ih, List.scanl_cons,
        List.foldl_cons, List.singleton_append, List.singleton_append,
        List.cons_append]

/-- Progress pushes do not change the status along the scan. -/
theorem scanl_setProgress_status (tid : Str) :
    ∀ (vals : List ℚ) (j : MediaItem),
      ((vals.map (fun v => StoreEvent.setProgress tid v)).scanl applyEvItem
          j).map (fun i => i.status) =
        List.replicate (vals.length + 1) j.status := by
  intro vals
  induction vals with
  | nil => intro j; simp [List.scanl_nil]
  | cons v vs ih =>
      intro j
      have hst : (applyEvItem j (StoreEvent.setProgress tid v)).status =
          j.status := by
        simp only [applyEvItem]; split <;> rfl
      rw [List.map_cons, List.scanl_cons, List.singleton_append,
        List.map_cons, ih (applyEvItem j (StoreEvent.setProgress tid v)), hst]
      simp [List.replicate_succ]

/-- Folding the progress pushes ends with the last pushed value (or leaves
the pre-existing value when nothing is pushed). -/
theorem foldl_setProgress (tid : Str) :
    ∀ (vals : List ℚ) (j : MediaItem) (d : ℚ), (j.id == tid) = true →
      j.progress = some d →
      (vals.map (fun v => StoreEvent.setProgress tid v)).foldl applyEvItem j =
        { j with progress := some (vals.getLastD d) } := by
  intro vals
  induction vals with
  | nil =>
      intro j d hid hp
      show j = { j with progress := some d }
      rw [← hp]
  | cons v vs ih =>
      intro j d hid hp
      rw [List.map_cons, List.foldl_cons]
      have hj : applyEvItem j (StoreEvent.setProgress tid v) =
          { j with progress := some v } := by
        simp [applyEvItem, hid]
      rw [hj, ih { j with progress := some v } v hid rfl, List.getLastD_cons]

/-- A `filterMap` that never hits is empty. -/
theorem filterMap_const_none {α β : Type} (l : List α) :
    (l.filterMap (fun _ => (none : Option β))) = [] := by
  induction l <;> simp_all [List.filterMap_cons]

/-- A `filterMap` that always hits is the identity. -/
theorem filterMap_const_some {α : Type} (l : List α) :
    (l.filterMap (fun v => some v)) = l := by
  induction l <;> simp_all [List.filterMap_cons]

/-- What one `downloadFile` run does to the item: success completes it with
progress 100; any failure marks it `error`, leaving the progress at the last
pushed value (or the 0 set when downloading started). -/
theorem runOne_eq (t : Transport) (item : MediaItem) (now : Nat) :
    runOne t item now =
      if transferSucceeds t then
        { item with status := MediaStatus.completed, progress := some 100 }
      else
        { item with
          status := MediaStatus.error
          progress := some ((progressValues t).getLastD 0) } := by
  have hself : (item.id == item.id) = true := by simp
  cases t with
  | netError =>
      show (downloadEvents Transport.netError item now).foldl applyEvItem item = _
      simp [downloadEvents, transferSucceeds, progressValues, applyEvItem, hself]
  | resp r =>
      cases r with
      | mk ok cl hasBody chunks se =>
        cases ok with
        | false =>
            show (downloadEvents (Transport.resp
                { ok := false, contentLength := cl, hasBody := hasBody
                  chunks := chunks, streamEnd := se }) item now).foldl
              applyEvItem item = _
            simp [downloadEvents, transferSucceeds, progressValues,
              applyEvItem, hself]
        | true =>
          have hstart : applyEvItem item (StoreEvent.startDownloading item.id) =
              { item with
                status := MediaStatus.downloading
                progress := some 0 } := by
            simp [applyEvItem, hself]
          cases hasBody with
          | false =>
              show (downloadEvents (Transport.resp
                  { ok := true, contentLength := cl, hasBody := false
                    chunks := chunks, streamEnd := se }) item now).foldl
                applyEvItem item = _
              simp [downloadEvents, transferSucceeds, progressValues,
                applyEvItem, hself, streamEndIsDone]
          | true =>
            cases se with
            | done =>
                show (StoreEvent.startDownloading item.id ::
                    ((streamVals (jsTotalPos cl) 0 chunks).map
                        (fun v => StoreEvent.setProgress item.id v) ++
                      [StoreEvent.complete item.id,
                        StoreEvent.histAppend (mkHistory now item)])).foldl
                    applyEvItem item = _
                rw [List.foldl_cons, hstart, List.foldl_append,
                  foldl_setProgress item.id (streamVals (jsTotalPos cl) 0 chunks)
                    { item with
                      status := MediaStatus.downloading
                      progress := some 0 } 0 hself rfl]
                simp [transferSucceeds, streamEndIsDone, applyEvItem, hself,
                  progressValues]
            | readError =>
                show (StoreEvent.startDownloading item.id ::
                    ((streamVals (jsTotalPos cl) 0 chunks).map
                        (fun v => StoreEvent.setProgress item.id v) ++
                      [StoreEvent.fail item.id])).foldl
                    applyEvItem item = _
                rw [List.foldl_cons, hstart, List.foldl_append,
                  foldl_setProgress item.id (streamVals (jsTotalPos cl) 0 chunks)
                    { item with
                      status := MediaStatus.downloading
                      progress := some 0 } 0 hself rfl]
                simp [transferSucceeds, streamEndIsDone, applyEvItem, hself,
                  progressValues]

/-- The item's status trace across a successful run: its initial status,
a nonempty block of `downloading`, then `completed`. -/
theorem itemStatuses_succ (t : Transport) (item : MediaItem) (now : Nat)
    (h : transferSucceeds t = true) :
    ∃ m : Nat, itemStatuses item (downloadEvents t item now) =
      item.status :: (List.replicate (m + 1) MediaStatus.downloading ++
        [MediaStatus.completed, MediaStatus.completed]) := by
  have hself : (item.id == item.id) = true := by simp
  have hstart : applyEvItem item (StoreEvent.startDownloading item.id) =
      { item with status := MediaStatus.downloading, progress := some 0 } := by
    simp [applyEvItem, hself]
  cases t with
  | netError => simp [transferSucceeds] at h
  | resp r =>
      cases r with
      | mk ok cl hasBody chunks se =>
        cases ok with
        | false => simp [transferSucceeds] at h
        | true =>
          cases hasBody with
          | false =>
              refine ⟨0, ?_⟩
              show ((StoreEvent.startDownloading item.id ::
                  ([] ++ [StoreEvent.complete item.id,
                    StoreEvent.histAppend (mkHistory now item)])).scanl
                  applyEvItem item).map (fun i => i.status) = _
              simp [List.scanl_cons, hstart, applyEvItem, hself,
                List.replicate_succ]
          | true =>
            cases se with
            | readError => simp [transferSucceeds, streamEndIsDone] at h
            | done =>
              refine ⟨(streamVals (jsTotalPos cl) 0 chunks).length, ?_⟩
              show ((StoreEvent.startDownloading item.id ::
                  ((streamVals (jsTotalPos cl) 0 chunks).map
                      (fun v => StoreEvent.setProgress item.id v) ++
                    [StoreEvent.complete item.id,
                      StoreEvent.histAppend (mkHistory now item)])).scanl
                  applyEvItem item).map (fun i => i.status) = _
              rw [List.scanl_cons, hstart, List.singleton_append,
                List.map_cons, scanl_append, List.map_append,
                scanl_setProgress_status item.id,
                foldl_setProgress item.id (streamVals (jsTotalPos cl) 0 chunks)
                  { item with
                    status := MediaStatus.downloading
                    progress := some 0 } 0 hself rfl]
              simp [List.scanl_cons, applyEvItem, hself]

/-- The item's status trace across a failing run: its initial status,
a nonempty block of `downloading`, then `error`. -/
theorem itemStatuses_fail (t : Transport) (item : MediaItem) (now : Nat)
    (h : transferSucceeds t = false) :
    ∃ m : Nat, itemStatuses item (downloadEvents t item now) =
      item.status :: (List.replicate (m + 1) MediaStatus.downloading ++
        [MediaStatus.error]) := by
  have hself : (item.id == item.id) = true := by simp
  have hstart : applyEvItem item (StoreEvent.startDownloading item.id) =
      { item with status := MediaStatus.downloading, progress := some 0 } := by
    simp [applyEvItem, hself]
  cases t with
  | netError =>
      refine ⟨0, ?_⟩
      show ((StoreEvent.startDownloading item.id ::
          [StoreEvent.fail item.id]).scanl applyEvItem item).map
          (fun i => i.status) = _
      simp [List.scanl_cons, hstart, applyEvItem, hself, List.replicate_succ]
  | resp r =>
      cases r with
      | mk ok cl hasBody chunks se =>
        cases ok with
        | false =>
            refine ⟨0, ?_⟩
            show ((StoreEvent.startDownloading item.id ::
                [StoreEvent.fail item.id]).scanl applyEvItem item).map
                (fun i => i.status) = _
            simp [List.scanl_cons, hstart, applyEvItem, hself,
              List.replicate_succ]
        | true =>
          cases hasBody with
          | false => simp [transferSucceeds, streamEndIsDone] at h
          | true =>
            cases se with
            | done => simp [transferSucceeds, streamEndIsDone] at h
            | readError =>
              refine ⟨(streamVals (jsTotalPos cl) 0 chunks).length, ?_⟩
              show ((StoreEvent.startDownloading item.id ::
                  ((streamVals (jsTotalPos cl) 0 chunks).map
                      (fun v => StoreEvent.setProgress item.id v) ++
                    [StoreEvent.fail item.id])).scanl
                  applyEvItem item).map (fun i => i.status) = _
              rw [List.scanl_cons, hstart, List.singleton_append,
                List.map_cons, scanl_append, List.map_append,
                scanl_setProgress_status item.id,
                foldl_setProgress item.id (streamVals (jsTotalPos cl) 0 chunks)
                  { item with
                    status := MediaStatus.downloading
                    progress := some 0 } 0 hself rfl]
              simp [List.scanl_cons, applyEvItem, hself]

/-- A successful run appends exactly one history entry, built by
`mkHistory`. -/
theorem histEvents_succ (t : Transport) (item : MediaItem) (now : Nat)
    (h : transferSucceeds t = true) :
    (downloadEvents t item now).filterMap histPayload =
      [mkHistory now item] := by
  cases t with
  | netError => simp [transferSucceeds] at h
  | resp r =>
      cases r with
      | mk ok cl hasBody chunks se =>
        cases ok with
        | false => simp [transferSucceeds] at h
        | true =>
          cases hasBody with
          | false => simp [downloadEvents, histPayload]
          | true =>
            cases se with
            | readError => simp [transferSucceeds, streamEndIsDone] at h
            | done =>
                show (StoreEvent.startDownloading item.id ::
                    ((streamVals (jsTotalPos cl) 0 chunks).map
                        (fun v => StoreEvent.setProgress item.id v) ++
                      [StoreEvent.complete item.id,
                        StoreEvent.histAppend (mkHistory now item)])).filterMap
                    histPayload = _
                rw [List.filterMap_cons, List.filterMap_append,
                  List.filterMap_map]
                simp [histPayload, Function.comp, filterMap_const_none]

/-- A failing run appends no history entry. -/
theorem histEvents_fail (t : Transport) (item : MediaItem) (now : Nat)
    (h : transferSucceeds t = false) :
    (downloadEvents t item now).filterMap histPayload = [] := by
  cases t with
  | netError => rfl
  | resp r =>
      cases r with
      | mk ok cl hasBody chunks se =>
        cases ok with
        | false => rfl
        | true =>
          cases hasBody with
          | false => simp [transferSucceeds, streamEndIsDone] at h
          | true =>
            cases se with
            | done => simp [transferSucceeds, streamEndIsDone] at h
            | readError =>
                show (StoreEvent.startDownloading item.id ::
                    ((streamVals (jsTotalPos cl) 0 chunks).map
                        (fun v => StoreEvent.setProgress item.id v) ++
                      [StoreEvent.fail item.id])).filterMap histPayload = _
                rw [List.filterMap_cons, List.filterMap_append,
                  List.filterMap_map]
                simp [histPayload, Function.comp, filterMap_const_none]

/-- The progress pushes a run performs are exactly `progressValues`. -/
theorem progEvents_eq (t : Transport) (item : MediaItem) (now : Nat) :
    (downloadEvents t item now).filterMap progPayload = progressValues t := by
  cases t with
  | netError => rfl
  | resp r =>
      cases r with
      | mk ok cl hasBody chunks se =>
        cases ok with
        | false => rfl
        | true =>
          cases hasBody with
          | false =>
              cases se <;> simp [downloadEvents, progressValues, progPayload]
          | true =>
            cases se with
            | done =>
                show (StoreEvent.startDownloading item.id ::
                    ((streamVals (jsTotalPos cl) 0 chunks).map
                        (fun v => StoreEvent.setProgress item.id v) ++
                      [StoreEvent.complete item.id,
                        StoreEvent.histAppend (mkHistory now item)])).filterMap
                    progPayload = _
                rw [List.filterMap_cons, List.filterMap_append,
                  List.filterMap_map]
                rw [show (progPayload ∘ fun v => StoreEvent.setProgress item.id v) =
                    fun v => some v from rfl, filterMap_const_some]
                simp [progPayload, progressValues]
            | readError =>
                show (StoreEvent.startDownloading item.id ::
                    ((streamVals (jsTotalPos cl) 0 chunks).map
                        (fun v => StoreEvent.setProgress item.id v) ++
                      [StoreEvent.fail item.id])).filterMap progPayload = _
                rw [List.filterMap_cons, List.filterMap_append,
                  List.filterMap_map,
                  show (progPayload ∘ fun v => StoreEvent.setProgress item.id v) =
                    fun v => some v from rfl, filterMap_const_some]
                simp [progPayload, progressValues]

/-- A positive parsed total is positive. -/
theorem jsTotalPos_pos (cl : Option Str) (tv : Nat)
    (h : jsTotalPos cl = some tv) : 0 < tv := by
  unfold jsTotalPos at h
  cases hj : jsTotal cl with
  | none => rw [hj] at h; simp at h
  | some n =>
      rw [hj] at h
      by_cases hn : 0 < n
      · simp [hn] at h
        omega
      · simp [hn] at h

/-- With an unknown or non-positive total, no progress value is produced. -/
theorem streamVals_none : ∀ (cs : List Nat) (r : Nat),
    streamVals none r cs = [] := by
  intro cs
  induction cs with
  | nil => intro r; rfl
  | cons c cs ih => intro r; simpa [streamVals] using ih (r + c)

/-- With a known positive total, the progress values are the running byte
totals scaled to percent. -/
theorem streamVals_eq_map (tv : Nat) : ∀ (cs : List Nat) (r : Nat),
    streamVals (some tv) r cs =
      (cumSums r cs).map (fun n : Nat => ((n : ℚ) / (tv : ℚ)) * 100) := by
  intro cs
  induction cs with
  | nil => intro r; rfl
  | cons c cs ih =>
      intro r
      simpa [streamVals, cumSums] using ih (r + c)

/-- The running byte totals start at or above the bytes already received. -/
theorem cumSums_head_ge (cs : List Nat) (r x : Nat)
    (h : (cumSums r cs).head? = some x) : r ≤ x := by
  cases cs with
  | nil => exact absurd h (by simp [cumSums])
  | cons c cs =>
      have : r + c = x := by simpa [cumSums] using h
      omega

/-- The running byte totals are monotone. -/
theorem cumSums_chain : ∀ (cs : List Nat) (r : Nat),
    List.Chain' (· ≤ ·) (cumSums r cs) := by
  intro cs
  induction cs with
  | nil => intro r; simp [cumSums]
  | cons c cs ih =>
      intro r
      rw [cumSums, List.chain'_cons']
      exact ⟨fun y hy => cumSums_head_ge cs (r + c) y (by simpa using hy),
        ih (r + c)⟩

/-- The running byte totals never exceed received-so-far plus all chunks. -/
theorem cumSums_le_sum : ∀ (cs : List Nat) (r n : Nat),
    n ∈ cumSums r cs → n ≤ r + cs.sum := by
  intro cs
  induction cs with
  | nil => intro r n h; exact absurd h (by simp [cumSums])
  | cons c cs ih =>
      intro r n h
      rw [cumSums, List.mem_cons] at h
      rcases h with h | h
      · subst h; rw [List.sum_cons]; omega
      · have := ih (r + c) n h
        rw [List.sum_cons]; omega

/-- Unfolding `progressValues` on a response. -/
theorem progressValues_resp (r : Response) :
    progressValues (Transport.resp r) =
      if r.ok then
        (if r.hasBody then
          streamVals (jsTotalPos r.contentLength) 0 r.chunks else [])
      else [] := rfl

/-- Every pushed progress value is non-negative. -/
theorem streamVals_mem_nonneg (tv : Nat) (cs : List Nat) (r0 : Nat) (p : ℚ)
    (hp : p ∈ streamVals (some tv) r0 cs) : 0 ≤ p := by
  rw [streamVals_eq_map, List.mem_map] at hp
  obtain ⟨n, hn, hpn⟩ := hp
  rw [← hpn]
  positivity

/-- When the delivered bytes stay within the declared total, every pushed
progress value is at most 100. -/
theorem streamVals_mem_le (tv : Nat) (cs : List Nat) (p : ℚ)
    (hpos : 0 < tv) (hsum : cs.sum ≤ tv)
    (hp : p ∈ streamVals (some tv) 0 cs) : p ≤ 100 := by
  rw [streamVals_eq_map, List.mem_map] at hp
  obtain ⟨n, hn, hpn⟩ := hp
  rw [← hpn]
  have hle : n ≤ tv := le_trans (by simpa using cumSums_le_sum cs 0 n hn) hsum
  have htvq : (0 : ℚ) < (tv : ℚ) := by exact_mod_cast hpos
  have hleq : (n : ℚ) ≤ (tv : ℚ) := by exact_mod_cast hle
  calc ((n : ℚ) / (tv : ℚ)) * 100 ≤ ((tv : ℚ) / (tv : ℚ)) * 100 := by gcongr
    _ = 100 := by rw [div_self (ne_of_gt htvq)]; ring

/-- Every run of the transfer engine is one `startDownloading`, a block of
progress pushes, and a terminal `fail` or `complete`-plus-history tail. -/
theorem downloadEvents_shape (t : Transport) (item : MediaItem) (now : Nat) :
    ∃ (vals : List ℚ) (tail : List StoreEvent),
      downloadEvents t item now =
        StoreEvent.startDownloading item.id ::
          (vals.map (fun v => StoreEvent.setProgress item.id v) ++ tail) ∧
      (tail = [StoreEvent.fail item.id] ∨
        tail = [StoreEvent.complete item.id,
          StoreEvent.histAppend (mkHistory now item)]) := by
  cases t with
  | netError =>
      exact ⟨[], [StoreEvent.fail item.id], rfl, Or.inl rfl⟩
  | resp r =>
      by_cases hok : r.ok
      · by_cases hbody : r.hasBody
        · by_cases hend : streamEndIsDone r.streamEnd
          · refine ⟨streamVals (jsTotalPos r.contentLength) 0 r.chunks,
              [StoreEvent.complete item.id,
                StoreEvent.histAppend (mkHistory now item)], ?_, Or.inr rfl⟩
            simp [downloadEvents, hok, hbody, hend]
          · refine ⟨streamVals (jsTotalPos r.contentLength) 0 r.chunks,
              [StoreEvent.fail item.id], ?_, Or.inl rfl⟩
            simp [downloadEvents, hok, hbody, hend]
        · refine ⟨[], [StoreEvent.complete item.id,
            StoreEvent.histAppend (mkHistory now item)], ?_, Or.inr rfl⟩
          simp [downloadEvents, hok, hbody]
      · exact ⟨[], [StoreEvent.fail item.id],
          by simp [downloadEvents, hok], Or.inl rfl⟩

/-- Every event of a run targets the downloaded item (or only the history). -/
theorem targets_downloadEvents (t : Transport) (item : MediaItem) (now : Nat)
    (e : StoreEvent) (he : e ∈ downloadEvents t item now) :
    targetsId e = some item.id ∨ targetsId e = none := by
  obtain ⟨vals, tail, hsh, htail⟩ := downloadEvents_shape t item now
  rw [hsh] at he
  rcases List.mem_cons.mp he with rfl | he
  · exact Or.inl rfl
  rcases List.mem_append.mp he with he | he
  · obtain ⟨v, _, rfl⟩ := List.mem_map.mp he
    exact Or.inl rfl
  · rcases htail with rfl | rfl
    · rw [List.mem_singleton.mp he]
      exact Or.inl rfl
    · rcases List.mem_cons.mp he with rfl | he
      · exact Or.inl rfl
      · rw [List.mem_singleton.mp he]
        exact Or.inr rfl

/-- An event targeting a different id (or no id) leaves an item untouched. -/
theorem applyEvItem_skip (j : MediaItem) (e : StoreEvent)
    (h : ∀ tid, targetsId e = some tid → j.id ≠ tid) : applyEvItem j e = j := by
  cases e with
  | startDownloading tid => simp [applyEvItem, beq_iff_eq, h tid rfl]
  | setProgress tid p => simp [applyEvItem, beq_iff_eq, h tid rfl]
  | complete tid => simp [applyEvItem, beq_iff_eq, h tid rfl]
  | fail tid => simp [applyEvItem, beq_iff_eq, h tid rfl]
  | histAppend _ => rfl

/-- A fold whose function fixes the seed pointwise fixes it globally. -/
theorem foldl_fixed {α β : Type} (f : β → α → β) (b : β) :
    ∀ l : List α, (∀ a ∈ l, f b a = b) → l.foldl f b = b := by
  intro l
  induction l with
  | nil => intro _; rfl
  | cons a l ih =>
      intro h
      rw [List.foldl_cons, h a (by simp)]
      exact ih (fun x hx => h x (by simp [hx]))

/-- A whole run leaves any item with a different id untouched. -/
theorem downloadEvents_foldl_skip (t : Transport) (x : MediaItem) (now : Nat)
    (j : MediaItem) (h : j.id ≠ x.id) :
    (downloadEvents t x now).foldl applyEvItem j = j := by
  apply foldl_fixed
  intro e he
  apply applyEvItem_skip
  intro tid htid
  rcases targets_downloadEvents t x now e he with h1 | h1
  · rw [htid] at h1
    injection h1 with h2
    rw [← h2] at h
    exact h
  · rw [htid] at h1
    exact absurd h1 (by simp)

/-- Lemma: `foldl` over a `flatMap` is the fold of the per-element folds. -/
theorem foldl_flatMap {α β γ : Type} (g : γ → List α) (f : β → α → β) :
    ∀ (xs : List γ) (b : β),
      (xs.flatMap g).foldl f b =
        xs.foldl (fun acc x => (g x).foldl f acc) b := by
  intro xs
  induction xs with
  | nil => intro b; rfl
  | cons x xs ih =>
      intro b
      rw [List.flatMap_cons, List.foldl_append, List.foldl_cons, ih]

/-- The batch replays items positionwise, like the single-item engine. -/
theorem items_runBatch (evs : List BatchEv) : ∀ s : AppState,
    (runBatch evs s).items =
      s.items.map (fun i => evs.foldl applyBatchItem i) := by
  induction evs with
  | nil => intro s; simp [runBatch]
  | cons be evs ih =>
      intro s
      have h1 : runBatch (be :: evs) s = runBatch evs (applyBatch s be) := rfl
      rw [h1, ih]
      cases be with
      | ev e =>
          show (s.items.map fun i => applyEvItem i e).map _ = _
          rw [List.map_map]; rfl
      | delay ms => rfl

/-- The batch history is the fold of the appended entries. -/
theorem runBatch_history (evs : List BatchEv) : ∀ s : AppState,
    (runBatch evs s).history =
      histFold (evs.filterMap (fun be =>
        match be with
        | BatchEv.ev e => histPayload e
        | BatchEv.delay _ => none)) s.history := by
  induction evs with
  | nil => intro s; rfl
  | cons be evs ih =>
      intro s
      have h1 : runBatch (be :: evs) s = runBatch evs (applyBatch s be) := rfl
      rw [h1, ih]
      cases be with
      | ev e => cases e <;> rfl
      | delay ms => rfl

/-- One orchestrator block acts on an item like the raw run events. -/
theorem foldl_block (evts : List StoreEvent) (j : MediaItem) :
    (evts.map BatchEv.ev ++ [BatchEv.delay 500]).foldl applyBatchItem j =
      evts.foldl applyEvItem j := by
  rw [List.foldl_append, List.foldl_map]
  rfl

/-- A `filterMap` that always returns the same value is a `replicate`. -/
theorem filterMap_const_val {α β : Type} (c : β) (l : List α) :
    l.filterMap (fun _ => some c) = List.replicate l.length c := by
  induction l <;> simp_all [List.filterMap_cons, List.replicate_succ]

/-- The ids one orchestrator block targets: a nonempty run of the block's
own item id. -/
theorem batchTargets_block (t : Transport) (x : MediaItem) (now : Nat) :
    ∃ m : Nat, batchTargets ((downloadEvents t x now).map BatchEv.ev ++
        [BatchEv.delay 500]) = List.replicate (m + 1) x.id := by
  obtain ⟨vals, tail, hsh, htail⟩ := downloadEvents_shape t x now
  have hb : batchTargets ((downloadEvents t x now).map BatchEv.ev ++
      [BatchEv.delay 500]) = (downloadEvents t x now).filterMap targetsId := by
    rw [batchTargets, List.filterMap_append, List.filterMap_map]
    rw [show ((fun be =>
        match be with
        | BatchEv.ev e => targetsId e
        | BatchEv.delay _ => none) ∘ BatchEv.ev) = targetsId from rfl]
    simp
  rw [hb, hsh, List.filterMap_cons, List.filterMap_append, List.filterMap_map,
    show (targetsId ∘ fun v => StoreEvent.setProgress x.id v) =
      (fun _ => some x.id) from rfl, filterMap_const_val]
  rcases htail with rfl | rfl
  · refine ⟨vals.length + 1, ?_⟩
    rw [show (List.filterMap targetsId [StoreEvent.fail x.id]) = [x.id] from rfl,
      List.replicate_succ, List.replicate_succ']
    rfl
  · refine ⟨vals.length + 1, ?_⟩
    rw [show (List.filterMap targetsId
        [StoreEvent.complete x.id,
          StoreEvent.histAppend (mkHistory now x)]) = [x.id] from rfl,
      List.replicate_succ, List.replicate_succ']
    rfl

/-- Folding the per-item runs of a batch whose items all carry other ids
leaves an item untouched. -/
theorem foldl_blocks_skip (T : Str → Transport) (tm : Str → Nat)
    (xs : List MediaItem) (j : MediaItem) (h : ∀ x ∈ xs, x.id ≠ j.id) :
    xs.foldl (fun a x =>
      (downloadEvents (T x.id) x (tm x.id)).foldl applyEvItem a) j = j := by
  apply foldl_fixed
  intro x hx
  exact downloadEvents_foldl_skip (T x.id) x (tm x.id) j
    (fun he => h x hx he.symm)

/-- Folding the per-item runs over a duplicate-free batch containing `i`
performs exactly `i`'s own run on `i`. -/
theorem foldl_blocks_hit (T : Str → Transport) (tm : Str → Nat) :
    ∀ (xs : List MediaItem) (i : MediaItem),
      (xs.map (fun x => x.id)).Nodup → i ∈ xs →
      xs.foldl (fun j x =>
        (downloadEvents (T x.id) x (tm x.id)).foldl applyEvItem j) i =
        runOne (T i.id) i (tm i.id) := by
  intro xs
  induction xs with
  | nil => intro i _ hi; exact absurd hi (by simp)
  | cons x xs ih =>
      intro i hnd hi
      have hnd2 : (x.id ∉ xs.map (fun y => y.id)) ∧
          (xs.map (fun y => y.id)).Nodup := by
        rw [List.map_cons, List.nodup_cons] at hnd
        exact hnd
      rw [List.foldl_cons]
      rcases List.mem_cons.mp hi with rfl | hi2
      · rw [show (downloadEvents (T i.id) i (tm i.id)).foldl applyEvItem i =
            runOne (T i.id) i (tm i.id) from rfl]
        apply foldl_fixed
        intro x2 hx2
        apply downloadEvents_foldl_skip
        have hid : (runOne (T i.id) i (tm i.id)).id = i.id :=
          foldl_applyEvItem_id _ i
        rw [hid]
        intro he
        exact hnd2.1 (he ▸ List.mem_map_of_mem (fun y => y.id) hx2)
      · have hne : i.id ≠ x.id := by
          intro he
          exact hnd2.1 (he ▸ List.mem_map_of_mem (fun y => y.id) hi2)
        rw [downloadEvents_foldl_skip (T x.id) x (tm x.id) i hne]
        exact ih i hnd2.2 hi2

/-- The distinct run of ids a duplicate-free batch targets is exactly the
ids of its items, in order. -/
theorem dedup_batchTargets (T : Str → Transport) (tm : Str → Nat) :
    ∀ xs : List MediaItem, (xs.map (fun x => x.id)).Nodup →
      dedupRuns (batchTargets (xs.flatMap (fun x =>
        (downloadEvents (T x.id) x (tm x.id)).map BatchEv.ev ++
          [BatchEv.delay 500]))) = xs.map (fun x => x.id) := by
  intro xs
  induction xs with
  | nil => intro _; rfl
  | cons x xs ih =>
      intro hnd
      have hnd2 : (x.id ∉ xs.map (fun y => y.id)) ∧
          (xs.map (fun y => y.id)).Nodup := by
        rw [List.map_cons, List.nodup_cons] at hnd
        exact hnd
      rw [List.flatMap_cons,
        show batchTargets (((downloadEvents (T x.id) x (tm x.id)).map
            BatchEv.ev ++ [BatchEv.delay 500]) ++
          (xs.flatMap (fun y => (downloadEvents (T y.id) y (tm y.id)).map
            BatchEv.ev ++ [BatchEv.delay 500]))) =
          batchTargets ((downloadEvents (T x.id) x (tm x.id)).map
            BatchEv.ev ++ [BatchEv.delay 500]) ++
          batchTargets (xs.flatMap (fun y =>
            (downloadEvents (T y.id) y (tm y.id)).map BatchEv.ev ++
              [BatchEv.delay 500])) from List.filterMap_append _ _ _]
      obtain ⟨m, hm⟩ := batchTargets_block (T x.id) x (tm x.id)
      rw [hm]
      cases xs with
      | nil =>
          rw [show (([] : List MediaItem).flatMap (fun y =>
              (downloadEvents (T y.id) y (tm y.id)).map BatchEv.ev ++
                [BatchEv.delay 500])) = [] from rfl,
            show batchTargets [] = [] from rfl,
            dedupRuns_replicate_append m x.id []]
          rfl
      | cons x2 xs2 =>
          rw [List.flatMap_cons,
            show batchTargets (((downloadEvents (T x2.id) x2 (tm x2.id)).map
                BatchEv.ev ++ [BatchEv.delay 500]) ++
              (xs2.flatMap (fun y => (downloadEvents (T y.id) y (tm y.id)).map
                BatchEv.ev ++ [BatchEv.delay 500]))) =
              batchTargets ((downloadEvents (T x2.id) x2 (tm x2.id)).map
                BatchEv.ev ++ [BatchEv.delay 500]) ++
              batchTargets (xs2.flatMap (fun y =>
                (downloadEvents (T y.id) y (tm y.id)).map BatchEv.ev ++
                  [BatchEv.delay 500])) from List.filterMap_append _ _ _]
          obtain ⟨m2, hm2⟩ := batchTargets_block (T x2.id) x2 (tm x2.id)
          rw [hm2, dedupRuns_replicate_append m x.id _,
            dedupRuns_phase x.id x2.id _ m2 (by
              intro he
              exact hnd2.1 (he ▸ List.mem_map_of_mem (fun y => y.id)
                (List.mem_cons_self x2 xs2)))]
          have hih := ih hnd2.2
          rw [List.flatMap_cons,
            show batchTargets (((downloadEvents (T x2.id) x2 (tm x2.id)).map
                BatchEv.ev ++ [BatchEv.delay 500]) ++
              (xs2.flatMap (fun y => (downloadEvents (T y.id) y (tm y.id)).map
                BatchEv.ev ++ [BatchEv.delay 500]))) =
              batchTargets ((downloadEvents (T x2.id) x2 (tm x2.id)).map
                BatchEv.ev ++ [BatchEv.delay 500]) ++
              batchTargets (xs2.flatMap (fun y =>
                (downloadEvents (T y.id) y (tm y.id)).map BatchEv.ev ++
                  [BatchEv.delay 500])) from List.filterMap_append _ _ _,
            hm2, dedupRuns_replicate_append m2 x2.id _] at hih
          rw [hih]
          simp

/-! ## Claims -/

/-- Claim C1 (code bug): the specification says `generateFilename` never
fails and returns the `download_<now>.<ext>` fallback on any URL-parse
failure.  In the source the `catch` branch evaluates `getFileExtension(url)`,
which parses the same malformed URL again and throws the same `TypeError`,
so the fallback is unreachable: whenever the parse fails, `generateFilename`
propagates the exception (modelled as `none`) instead of returning a name. -/
theorem generateFilename_propagates_parse_failure (parse : Parse) (now : Nat)
    (url : Str) (h : parse url = none) :
    generateFilename parse now url = none := by
  simp [generateFilename, getFileExtension, h]

/-- Witness for C1 at the concrete malformed URL `not a url`. -/
theorem generateFilename_propagates_parse_failure_witness :
    demoParse (str "not a url") = none ∧
      generateFilename demoParse 3 (str "not a url") = none :=
  ⟨by decide,
    generateFilename_propagates_parse_failure demoParse 3 (str "not a url") (by decide)⟩

/-- Claim C6: whenever the URL parses, `getMediaType` maps the lowercased
extension through the image list, then the video list, and defaults to
`image` for anything unrecognized (including the no-dot case, where the
"extension" is the whole lowercased pathname and never matches a list). -/
theorem getMediaType_classifies (parse : Parse) (url : Str) (ext : Str)
    (h : getFileExtension parse url = some ext) :
    getMediaType parse url =
      some (if ext ∈ imageExts then MediaType.image
        else if ext ∈ videoExts then MediaType.video
        else MediaType.image) := by
  simp [getMediaType, h]

/-- Witness for C6: `a.mp4` classifies as video. -/
theorem getMediaType_classifies_witness :
    getFileExtension demoParse (str "https://x.test/a.mp4") = some (str "mp4") ∧
      getMediaType demoParse (str "https://x.test/a.mp4") = some MediaType.video := by
  refine ⟨by decide, ?_⟩
  rw [getMediaType_classifies demoParse (str "https://x.test/a.mp4") (str "mp4")
    (by decide)]
  decide

/-- Counterexample to claim C8: for `https://x.test/clip` the source's
extension is the entire lowercased pathname `/clip` (splitting a dot-free
path on `'.'` returns the whole path), so the derived filename is
`clip./clip`, not the claimed `clip.` with an empty extension. -/
theorem generateFilename_clip_counterexample :
    generateFilename demoParse 0 (str "https://x.test/clip") =
        some (str "clip./clip") ∧
      generateFilename demoParse 0 (str "https://x.test/clip") ≠
        some (str "clip.") :=
  ⟨by decide, by decide⟩

/-- Claim C8 as amended: for a parsed URL whose last path segment is
nonempty and dot-free, `generateFilename` returns the segment, a dot, and
`getFileExtension`'s value — which is the last `'.'`-piece of the whole
pathname, lowercased (for a dot-free pathname, the whole pathname) — and
`getMediaType` returns `image` when that value is in neither extension
list.  For `https://x.test/clip` this yields `clip./clip`, not `clip.`. -/
theorem generateFilename_noDotSegment (parse : Parse) (now : Nat) (url : Str)
    (u : URLObj) (hp : parse url = some u)
    (hne : (splitOnChar '/' u.pathname).getLastD [] ≠ [])
    (hdot : ((splitOnChar '/' u.pathname).getLastD []).contains '.' = false)
    (himg : strToLower ((splitOnChar '.' u.pathname).getLastD []) ∉ imageExts)
    (hvid : strToLower ((splitOnChar '.' u.pathname).getLastD []) ∉ videoExts) :
    generateFilename parse now url =
      some ((splitOnChar '/' u.pathname).getLastD [] ++ ['.'] ++
        strToLower ((splitOnChar '.' u.pathname).getLastD [])) ∧
    getMediaType parse url = some MediaType.image := by
  simp only [List.getLastD_eq_getLast?] at hne hdot himg hvid
  replace hdot : '.' ∉ (splitOnChar '/' u.pathname).getLast?.getD [] := by
    simpa using hdot
  constructor
  · simp [generateFilename, hp, hne, hdot, getFileExtension]
  · simp [getMediaType, getFileExtension, hp, himg, hvid]

/-- Witness for the amended C8 at `https://x.test/clip`. -/
theorem generateFilename_noDotSegment_witness :
    generateFilename demoParse 0 (str "https://x.test/clip") =
      some ((splitOnChar '/' (str "/clip")).getLastD [] ++ ['.'] ++
        strToLower ((splitOnChar '.' (str "/clip")).getLastD [])) ∧
    getMediaType demoParse (str "https://x.test/clip") = some MediaType.image :=
  generateFilename_noDotSegment demoParse 0 (str "https://x.test/clip")
    { pathname := str "/clip" } (by decide) (by decide) (by decide)
    (by decide) (by decide)

/-- Counterexample to claim C5: `%%%` is non-blank after trimming and not
present in the empty store, yet `addMediaItem` appends nothing — building
the new item calls `getMediaType`, whose `new URL` throws, so the handler
raises (modelled `none`) instead of appending one pending item. -/
theorem addMediaItem_throws_counterexample :
    strTrim (str "%%%") = str "%%%" ∧
      addMediaItem demoParse 0 [] (str "%%%") = none :=
  ⟨by decide, by decide⟩

/-- Claim C5 as amended: `add` is a no-op on blank input and on an exact
duplicate of a stored `url`; for a fresh, non-blank URL it appends exactly
one pending item — provided the trimmed URL parses (otherwise the handler
raises with the store unchanged) — and adding the same URL again is then a
no-op, so adding the same URL twice yields exactly one item. -/
theorem addMediaItem_amended (parse : Parse) (now now2 : Nat)
    (items : List MediaItem) (url turl : Str) (ht : strTrim url = turl) :
    (turl = [] → addMediaItem parse now items url = some items) ∧
    ((items.any fun i => i.url == turl) = true →
      addMediaItem parse now items url = some items) ∧
    (turl ≠ [] → (items.any fun i => i.url == turl) = false →
      (getMediaType parse turl = none →
        addMediaItem parse now items url = none) ∧
      (∀ ty fn, getMediaType parse turl = some ty →
        generateFilename parse now turl = some fn →
        addMediaItem parse now items url =
          some (items ++ [newItemOf now turl ty fn]) ∧
        addMediaItem parse now2 (items ++ [newItemOf now turl ty fn]) url =
          some (items ++ [newItemOf now turl ty fn]))) := by
  subst ht
  refine ⟨fun hb => by simp [addMediaItem, hb], fun hdup => ?_, fun hb hdup => ?_⟩
  · by_cases hb : strTrim url = [] <;> simp [addMediaItem, hb, hdup]
  · constructor
    · intro hmt
      simp [addMediaItem, hb, hdup, hmt]
    · intro ty fn hmt hgf
      constructor
      · simp [addMediaItem, hb, hdup, hmt, hgf]
      · have hany : ((items ++ [newItemOf now (strTrim url) ty fn]).any
            fun i => i.url == strTrim url) = true := by
          simp [newItemOf]
        simp [addMediaItem, hb, hany]

/-- Witness for the amended C5: adding `https://x.test/pic.jpg` (with
surrounding blanks) to an empty store appends one pending item, and adding
it again is a no-op. -/
theorem addMediaItem_amended_witness :
    addMediaItem demoParse 5 [] (str " https://x.test/pic.jpg ") =
      some [newItemOf 5 (str "https://x.test/pic.jpg") MediaType.image
        (str "pic.jpg")] ∧
    addMediaItem demoParse 6
      [newItemOf 5 (str "https://x.test/pic.jpg") MediaType.image (str "pic.jpg")]
      (str " https://x.test/pic.jpg ") =
      some [newItemOf 5 (str "https://x.test/pic.jpg") MediaType.image
        (str "pic.jpg")] := by
  have h := ((addMediaItem_amended demoParse 5 6 []
    (str " https://x.test/pic.jpg ") (str "https://x.test/pic.jpg")
    (by decide)).2.2 (by decide) (by decide)).2
    MediaType.image (str "pic.jpg") (by decide) (by decide)
  simpa using h

/-- Claim C2: the bounded append keeps the log at or below 50 entries,
inserts the new entry at the head, evicts exactly the oldest (last) entry
when the log is at capacity 50, and after any 50-or-more successful
sequential downloads (in particular 60) the log is exactly the 50 most
recent entries in most-recent-first order. -/
theorem history_bounded (e : DownloadHistory) (h h0 es : List DownloadHistory)
    (hlen : h0.length ≤ 50) (hes : 50 ≤ es.length) :
    (appendHistory e h).length ≤ 50 ∧
    (appendHistory e h).head? = some e ∧
    (h.length = 50 → appendHistory e h = e :: h.dropLast) ∧
    histFold es h0 = es.reverse.take 50 := by
  refine ⟨?_, rfl, ?_, histFold_recent es h0 hlen hes⟩
  · simp only [appendHistory, List.length_cons, List.length_take]; omega
  · intro hcap
    simp [appendHistory, List.dropLast_eq_take, hcap]

/-- Claim C4: a fully successful run takes the item's status through
`pending → downloading → completed`, leaves its progress at 100, and
appends exactly one history entry copying the item's filename, url and
kind, with a fresh id and the current timestamp. -/
theorem downloadFile_success (t : Transport) (item : MediaItem) (now : Nat)
    (s : AppState)
    (hfind : s.items.find? (fun i => i.id == item.id) = some item)
    (hpend : item.status = MediaStatus.pending)
    (hsucc : transferSucceeds t = true) :
    dedupRuns (statusTrace (downloadEvents t item now) s item.id) =
      [MediaStatus.pending, MediaStatus.downloading, MediaStatus.completed] ∧
    (downloadFileRun t item now s).items.find? (fun i => i.id == item.id) =
      some { item with status := MediaStatus.completed, progress := some 100 } ∧
    (downloadFileRun t item now s).history =
      appendHistory (mkHistory now item) s.history ∧
    (downloadEvents t item now).filterMap histPayload = [mkHistory now item] ∧
    (mkHistory now item).filename = item.filename ∧
    (mkHistory now item).url = item.url ∧
    (mkHistory now item).type = item.type ∧
    (mkHistory now item).id = natStr now ∧
    (mkHistory now item).downloadedAt = now := by
  refine ⟨?_, ?_, ?_, histEvents_succ t item now hsucc, rfl, rfl, rfl, rfl, rfl⟩
  · rw [statusTrace_eq (downloadEvents t item now) s item.id item hfind]
    obtain ⟨m, hm⟩ := itemStatuses_succ t item now hsucc
    rw [hm, hpend, dedupRuns_phase _ _ _ m (by decide)]
    decide
  · have h := find?_runEvents (downloadEvents t item now) s item.id item hfind
    rw [show (downloadFileRun t item now s) =
        runEvents (downloadEvents t item now) s from rfl, h,
      show (downloadEvents t item now).foldl applyEvItem item =
        runOne t item now from rfl,
      runOne_eq, if_pos hsucc]
  · rw [show (downloadFileRun t item now s) =
        runEvents (downloadEvents t item now) s from rfl,
      runEvents_history, histEvents_succ t item now hsucc]
    rfl

/-- Witness for C4 with the concrete transport `tOk` and queue `[itemA]`. -/
theorem downloadFile_success_witness :
    dedupRuns (statusTrace (downloadEvents tOk itemA 9)
        { items := [itemA], history := [hEntry] } itemA.id) =
      [MediaStatus.pending, MediaStatus.downloading, MediaStatus.completed] ∧
    (downloadFileRun tOk itemA 9
        { items := [itemA], history := [hEntry] }).items.find?
        (fun i => i.id == itemA.id) =
      some { itemA with status := MediaStatus.completed, progress := some 100 } ∧
    (downloadFileRun tOk itemA 9
        { items := [itemA], history := [hEntry] }).history =
      appendHistory (mkHistory 9 itemA) [hEntry] := by
  have h := downloadFile_success tOk itemA 9
    { items := [itemA], history := [hEntry] } (by decide) (by decide) (by decide)
  exact ⟨h.1, h.2.1, h.2.2.1⟩

/-- Claim C3: a run whose transfer fails at any point (rejected fetch,
non-success status, or stream read error) takes the item through
`pending → downloading → error`, leaves the progress field at its last
observed value (the last pushed percentage, or the 0 set when downloading
began), appends nothing to the history and leaves it untouched; the model
is a total function — no exception reaches the caller. -/
theorem downloadFile_failure (t : Transport) (item : MediaItem) (now : Nat)
    (s : AppState)
    (hfind : s.items.find? (fun i => i.id == item.id) = some item)
    (hpend : item.status = MediaStatus.pending)
    (hfail : transferSucceeds t = false) :
    dedupRuns (statusTrace (downloadEvents t item now) s item.id) =
      [MediaStatus.pending, MediaStatus.downloading, MediaStatus.error] ∧
    (downloadFileRun t item now s).items.find? (fun i => i.id == item.id) =
      some { item with
        status := MediaStatus.error
        progress := some ((progressValues t).getLastD 0) } ∧
    (downloadFileRun t item now s).history = s.history ∧
    (downloadEvents t item now).filterMap histPayload = [] := by
  refine ⟨?_, ?_, ?_, histEvents_fail t item now hfail⟩
  · rw [statusTrace_eq (downloadEvents t item now) s item.id item hfind]
    obtain ⟨m, hm⟩ := itemStatuses_fail t item now hfail
    rw [hm, hpend, dedupRuns_phase _ _ _ m (by decide)]
    decide
  · have h := find?_runEvents (downloadEvents t item now) s item.id item hfind
    rw [show (downloadFileRun t item now s) =
        runEvents (downloadEvents t item now) s from rfl, h,
      show (downloadEvents t item now).foldl applyEvItem item =
        runOne t item now from rfl,
      runOne_eq, if_neg (by simp [hfail])]
  · rw [show (downloadFileRun t item now s) =
        runEvents (downloadEvents t item now) s from rfl,
      runEvents_history, histEvents_fail t item now hfail]
    rfl

/-- Witness for C3 with the rejected-fetch transport `tNet`. -/
theorem downloadFile_failure_witness :
    dedupRuns (statusTrace (downloadEvents tNet itemA 9)
        { items := [itemA], history := [hEntry] } itemA.id) =
      [MediaStatus.pending, MediaStatus.downloading, MediaStatus.error] ∧
    (downloadFileRun tNet itemA 9
        { items := [itemA], history := [hEntry] }).items.find?
        (fun i => i.id == itemA.id) =
      some { itemA with
        status := MediaStatus.error
        progress := some ((progressValues tNet).getLastD 0) } ∧
    (downloadFileRun tNet itemA 9
        { items := [itemA], history := [hEntry] }).history = [hEntry] := by
  have h := downloadFile_failure tNet itemA 9
    { items := [itemA], history := [hEntry] } (by decide) (by decide) (by decide)
  exact ⟨h.1, h.2.1, h.2.2.1⟩

/-- Witness for C2: sixty successful downloads from an empty log leave the
50 most recent entries, most-recent-first. -/
theorem history_bounded_witness :
    (appendHistory hEntry []).length ≤ 50 ∧
    (appendHistory hEntry []).head? = some hEntry ∧
    (([] : List DownloadHistory).length = 50 →
      appendHistory hEntry [] = hEntry :: List.dropLast []) ∧
    histFold entries60 [] = entries60.reverse.take 50 :=
  history_bounded hEntry [] [] entries60 (by decide) (by decide)

/-- Counterexample to claim C10: with header `content-length: 10` but a
20-byte chunk delivered, the progress pushed to the store is 200 — the code
computes `received / total * 100` without clamping, so progress is not
confined to [0,100]. -/
theorem progress_over100_counterexample :
    progressValues tOver = [200] ∧ ¬ ((200 : ℚ) ≤ 100) := by
  constructor
  · show streamVals (jsTotalPos (some (str "10"))) 0 [20] = [200]
    rw [show jsTotalPos (some (str "10")) = some 10 from by decide]
    simp [streamVals]
    norm_num
  · norm_num

/-- Claim C10 as amended: while downloading, pushed progress values are
monotonically non-decreasing and non-negative; they are confined to [0,100]
whenever the delivered bytes do not exceed the declared total, but can
exceed 100 when the body is longer than the `content-length` header claims.
Updates are pushed only when the header parses to a positive integer: when
it is absent, non-numeric or non-positive, no progress update is pushed
during the stream (the item then moves from `downloading` straight to a
terminal state).  The pushes a run performs are exactly `progressValues`. -/
theorem progress_spec (t : Transport) (item : MediaItem) (now : Nat) :
    List.Chain' (· ≤ ·) (progressValues t) ∧
    (∀ p ∈ progressValues t, 0 ≤ p) ∧
    (∀ r : Response, t = Transport.resp r →
      jsTotalPos r.contentLength = none → progressValues t = []) ∧
    (∀ (r : Response) (tv : Nat), t = Transport.resp r →
      jsTotalPos r.contentLength = some tv → r.chunks.sum ≤ tv →
      ∀ p ∈ progressValues t, p ≤ 100) ∧
    (downloadEvents t item now).filterMap progPayload = progressValues t := by
  refine ⟨?_, ?_, ?_, ?_, progEvents_eq t item now⟩
  · cases t with
    | netError => simp [progressValues]
    | resp r =>
        rw [progressValues_resp]
        split
        · split
          · cases htv : jsTotalPos r.contentLength with
            | none => rw [streamVals_none]; simp
            | some tv =>
                have hpos := jsTotalPos_pos _ _ htv
                rw [streamVals_eq_map]
                refine List.chain'_map_of_chain'
                  (fun n : Nat => ((n : ℚ) / (tv : ℚ)) * 100) ?_
                  (cumSums_chain r.chunks 0)
                intro a b hab
                show ((a : ℚ) / (tv : ℚ)) * 100 ≤ ((b : ℚ) / (tv : ℚ)) * 100
                have habq : (a : ℚ) ≤ (b : ℚ) := by exact_mod_cast hab
                gcongr
          · simp
        · simp
  · intro p hp
    cases t with
    | netError => simp [progressValues] at hp
    | resp r =>
        rw [progressValues_resp] at hp
        split at hp
        · split at hp
          · cases htv : jsTotalPos r.contentLength with
            | none => rw [htv, streamVals_none] at hp; simp at hp
            | some tv =>
                rw [htv] at hp
                exact streamVals_mem_nonneg tv r.chunks 0 p hp
          · simp at hp
        · simp at hp
  · intro r heq hnone
    subst heq
    rw [progressValues_resp, hnone]
    split
    · split
      · exact streamVals_none r.chunks 0
      · rfl
    · rfl
  · intro r tv heq htv hsum p hp
    subst heq
    rw [progressValues_resp] at hp
    split at hp
    · split at hp
      · rw [htv] at hp
        exact streamVals_mem_le tv r.chunks p (jsTotalPos_pos _ _ htv) hsum hp
      · simp at hp
    · simp at hp

/-- Witness for the amended C10: the transport `tOk` (total 4, chunks of 2
and 2) pushes exactly 50 then 100, a monotone sequence matching the run's
pushed events. -/
theorem progress_spec_witness :
    progressValues tOk = [50, 100] ∧
    List.Chain' (· ≤ ·) (progressValues tOk) ∧
    (downloadEvents tOk itemA 9).filterMap progPayload = progressValues tOk := by
  refine ⟨?_, (progress_spec tOk itemA 9).1, (progress_spec tOk itemA 9).2.2.2.2⟩
  show streamVals (jsTotalPos (some (str "4"))) 0 [2, 2] = [50, 100]
  rw [show jsTotalPos (some (str "4")) = some 4 from by decide]
  simp [streamVals]
  norm_num

/-- Claim C7: `downloadAll` snapshots exactly the items pending at call
time and processes them in sequence order — the final queue is the original
queue with each pending item replaced by its own run's outcome and every
non-pending item untouched; each run ends in the terminal state its own
transport dictates (`completed` on success, `error` on failure, regardless
of the other items' outcomes); the targeted ids, with consecutive repeats
collapsed, are exactly the pending items' ids in order, each block followed
by the fixed 500ms delay in the trace. -/
theorem downloadAll_spec (T : Str → Transport) (tm : Str → Nat) (s : AppState)
    (hnodup : (s.items.map (fun i => i.id)).Nodup) :
    (runBatch (downloadAllEvents T tm s.items) s).items =
      s.items.map (fun i =>
        if i.status = MediaStatus.pending then runOne (T i.id) i (tm i.id)
        else i) ∧
    (∀ i ∈ s.items, i.status = MediaStatus.pending →
      (runOne (T i.id) i (tm i.id)).status =
        (if transferSucceeds (T i.id) then MediaStatus.completed
          else MediaStatus.error)) ∧
    dedupRuns (batchTargets (downloadAllEvents T tm s.items)) =
      (s.items.filter (fun i => decide (i.status = MediaStatus.pending))).map
        (fun i => i.id) ∧
    (runBatch (downloadAllEvents T tm s.items) s).items.length =
      s.items.length := by
  have hsub : ((s.items.filter (fun i =>
      decide (i.status = MediaStatus.pending))).map (fun i => i.id)).Nodup :=
    List.Nodup.sublist (List.Sublist.map _ (List.filter_sublist s.items)) hnodup
  refine ⟨?_, ?_, ?_, ?_⟩
  · rw [items_runBatch]
    apply List.map_congr_left
    intro i hi
    rw [show downloadAllEvents T tm s.items =
        (s.items.filter (fun i => decide (i.status = MediaStatus.pending))).flatMap
          (fun x => (downloadEvents (T x.id) x (tm x.id)).map BatchEv.ev ++
            [BatchEv.delay 500]) from rfl,
      foldl_flatMap]
    simp only [foldl_block]
    by_cases hpend : i.status = MediaStatus.pending
    · rw [if_pos hpend]
      exact foldl_blocks_hit T tm _ i hsub
        (List.mem_filter.mpr ⟨hi, by simp [hpend]⟩)
    · rw [if_neg hpend]
      apply foldl_blocks_skip
      intro x hx
      have hx2 := List.mem_filter.mp hx
      intro he
      have : x = i := List.inj_on_of_nodup_map hnodup hx2.1 hi he
      rw [this] at hx2
      exact hpend (by simpa using hx2.2)
  · intro i _ _
    rw [runOne_eq]
    split <;> rfl
  · exact dedup_batchTargets T tm _ hsub
  · rw [items_runBatch, List.length_map]

/-- Witness for C7: over `[itemA (pending), itemB (downloading),
itemC (pending)]` the batch runs exactly A then C, leaving B untouched. -/
theorem downloadAll_spec_witness :
    (runBatch (downloadAllEvents (fun _ => tOk) (fun _ => 7)
        [itemA, itemB, itemC])
        { items := [itemA, itemB, itemC], history := [] }).items =
      [runOne tOk itemA 7, itemB, runOne tOk itemC 7] ∧
    dedupRuns (batchTargets (downloadAllEvents (fun _ => tOk) (fun _ => 7)
        [itemA, itemB, itemC])) = [itemA.id, itemC.id] := by
  have h := downloadAll_spec (fun _ => tOk) (fun _ => 7)
    { items := [itemA, itemB, itemC], history := [] } (by decide)
  constructor
  · rw [h.1]
    simp only [List.map_cons, List.map_nil]
    rw [if_pos (show itemA.status = MediaStatus.pending from rfl),
      if_neg (show ¬ itemB.status = MediaStatus.pending from by decide),
      if_pos (show itemC.status = MediaStatus.pending from rfl)]
  · rw [h.2.2.1]
    decide

/-- Counterexample to claim C9: `clearHistory` is wired to the Clear
History button of the interface and empties the log wholesale — an
interface operation that removes existing history entries without any
capacity eviction, so the log is not append-only. -/
theorem clearHistory_counterexample :
    step demoParse { items := [], history := [hEntry] } Op.clearHistory =
      some { items := [], history := [] } ∧
    ([] : List DownloadHistory) ≠ [hEntry] :=
  ⟨rfl, by decide⟩

/-- Claim C9 as amended: every public-interface step either is the
`clearHistory` command, which empties the log, or leaves the history
reachable from its old value by a (possibly empty) sequence of bounded
head-appends — no other operation removes or rewrites existing entries
beyond capacity eviction. -/
theorem step_history_amended (parse : Parse) (s : AppState) (op : Op)
    (s2 : AppState) (h : step parse s op = some s2) :
    (op = Op.clearHistory ∧ s2.history = []) ∨
    ReachableByAppends s.history s2.history := by
  cases op with
  | add now url =>
      right
      cases ha : addMediaItem parse now s.items url with
      | none =>
          rw [show step parse s (Op.add now url) =
              (addMediaItem parse now s.items url).map
                (fun items => { s with items }) from rfl, ha] at h
          exact absurd h (by simp)
      | some items2 =>
          rw [show step parse s (Op.add now url) =
              (addMediaItem parse now s.items url).map
                (fun items => { s with items }) from rfl, ha] at h
          injection h with h2
          exact ⟨[], by rw [← h2]; rfl⟩
  | remove id =>
      right
      injection h with h2
      exact ⟨[], by rw [← h2]; rfl⟩
  | run id t now =>
      right
      cases hf : s.items.find? (fun i => i.id == id) with
      | none =>
          rw [show step parse s (Op.run id t now) =
              (match s.items.find? (fun i => i.id == id) with
              | some item => some (downloadFileRun t item now s)
              | none => some s) from rfl, hf] at h
          injection h with h2
          exact ⟨[], by rw [← h2]; rfl⟩
      | some item =>
          rw [show step parse s (Op.run id t now) =
              (match s.items.find? (fun i => i.id == id) with
              | some item => some (downloadFileRun t item now s)
              | none => some s) from rfl, hf] at h
          injection h with h2
          exact ⟨(downloadEvents t item now).filterMap histPayload,
            by rw [← h2]; exact runEvents_history _ s⟩
  | runAll T tm =>
      right
      injection h with h2
      exact ⟨_, by rw [← h2]; exact runBatch_history _ s⟩
  | clearCompleted =>
      right
      injection h with h2
      exact ⟨[], by rw [← h2]; rfl⟩
  | clearHistory =>
      left
      injection h with h2
      exact ⟨rfl, by rw [← h2]⟩

/-- Witness for the amended C9 at the concrete `clearHistory` step. -/
theorem step_history_amended_witness :
    (Op.clearHistory = Op.clearHistory ∧
      AppState.history { items := [], history := [] } = []) ∨
    ReachableByAppends [hEntry]
      (AppState.history { items := [], history := [] }) :=
  step_history_amended demoParse { items := [], history := [hEntry] }
    Op.clearHistory { items := [], history := [] } rfl

end MediaDrop
